import Mathlib

/-!
Verification of the Gaussian least-squares localization core in
`src/picasso/gausslq.py` (and the record utilities it relies on).

The Python functions are shallowly embedded in Lean:
pixel intensities and fitted parameters are embedded as exact rationals
(`ℚ`) wherever the code only does field arithmetic, and as reals (`ℝ`)
where a square root or an exponential appears; numpy arrays become
functions out of `Fin` or `List`s; the `scipy.optimize.leastsq` solver and
the `postprocess.localization_precision` formula are external collaborators
and are taken as opaque function parameters; the process pool is embedded
by its deterministic denotation (a submitted task's future resolves to the
value of the submitted call, and `fits_from_futures` reads futures in
submission-list order).
-/

/-- A spot: a square `S × S` window of pixel intensities
(the per-fit input of `gausslq.py`), pixels embedded as exact rationals. -/
def Spot (S : ℕ) : Type := Fin S → Fin S → ℚ

/-- Embeds `_np.min(spot)`: the least pixel value of a (nonempty) spot. -/
def spotMin {S : ℕ} [NeZero S] (spot : Spot S) : ℚ :=
  Finset.univ.inf' Finset.univ_nonempty fun p : Fin S × Fin S => spot p.1 p.2

/-- Embeds `_sum_and_center_of_mass(spot, size)`.  The loop accumulates
`x += spot[i, j] * i`, `y += spot[i, j] * j`, `_sum_ += spot[i, j]`,
then divides `x` and `y` by `_sum_` and returns the tuple
`(_sum_, y, x)` — in that order, exactly as the `return` statement does. -/
def sum_and_center_of_mass {S : ℕ} (spot : Spot S) : ℚ × ℚ × ℚ :=
  let x : ℚ := ∑ i : Fin S, ∑ j : Fin S, spot i j * (i.val : ℚ)
  let y : ℚ := ∑ i : Fin S, ∑ j : Fin S, spot i j * (j.val : ℚ)
  let s : ℚ := ∑ i : Fin S, ∑ j : Fin S, spot i j
  (s, y / s, x / s)

/-- The two radicands of `_initial_sigmas(spot, y, x, sum, size)`:
`sum_deviation_y / sum` and `sum_deviation_x / sum`, where
`sum_deviation_y = Σ spot[i,j]·(i-y)²` and
`sum_deviation_x = Σ spot[i,j]·(j-x)²`.  The trailing square roots are
taken in `initial_sigmas` below. -/
def initial_sigmas_sq {S : ℕ} (spot : Spot S) (y x sum : ℚ) : ℚ × ℚ :=
  let sum_deviation_y : ℚ := ∑ i : Fin S, ∑ j : Fin S, spot i j * ((i.val : ℚ) - y) ^ 2
  let sum_deviation_x : ℚ := ∑ i : Fin S, ∑ j : Fin S, spot i j * ((j.val : ℚ) - x) ^ 2
  (sum_deviation_y / sum, sum_deviation_x / sum)

/-- Embeds `_initial_sigmas`: returns `(sy, sx) = (sqrt(sum_deviation_y / sum),
sqrt(sum_deviation_x / sum))`, in the source's return order. -/
noncomputable def initial_sigmas {S : ℕ} (spot : Spot S) (y x sum : ℚ) : ℝ × ℝ :=
  (Real.sqrt ((initial_sigmas_sq spot y x sum).1 : ℝ),
   Real.sqrt ((initial_sigmas_sq spot y x sum).2 : ℝ))

/-- Embeds `_initial_parameters(spot, size, size_half)`.  Mirrors the source
line by line: `theta[3] = min(spot)`; `spot_without_bg = spot - theta[3]`;
`sum, theta[1], theta[0] = _sum_and_center_of_mass(spot_without_bg, size)`
(so `theta[1]` receives the second returned component and `theta[0]` the
third); `theta[2] = maximum(1.0, sum)`;
`theta[5], theta[4] = _initial_sigmas(spot - theta[3], theta[1], theta[0], sum, size)`;
finally `theta[0:2] -= size_half`. -/
noncomputable def initial_parameters {S : ℕ} [NeZero S] (spot : Spot S)
    (size_half : ℕ) : Fin 6 → ℝ :=
  let bg : ℚ := spotMin spot
  let spot_without_bg : Spot S := fun i j => spot i j - bg
  let scm := sum_and_center_of_mass spot_without_bg
  let sum : ℚ := scm.1
  let t1 : ℚ := scm.2.1
  let t0 : ℚ := scm.2.2
  let sig := initial_sigmas spot_without_bg t1 t0 sum
  ![(t0 : ℝ) - size_half, (t1 : ℝ) - size_half, ((max 1 sum : ℚ) : ℝ), (bg : ℝ),
    sig.2, sig.1]

/-- A 3×3 spot whose only nonzero (background-removed) pixel sits at row 0,
column 1: it separates the row-weighted from the column-weighted center of
mass. -/
def spotAsym : Spot 3 := fun i j => if i.val = 0 ∧ j.val = 1 then 2 else 0

/-- A flat 3×3 spot: every pixel equals 5, so the background-removed spot
is identically zero. -/
def spotFlat : Spot 3 := fun _ _ => 5

/-- C9: the Initial Guess Estimator subtracts the minimum pixel value as
background, so every background-removed pixel is nonnegative, the
background-removed total intensity (the first component returned by
`_sum_and_center_of_mass`) is nonnegative — the negative-total degenerate
case is unreachable — and that total is zero exactly when the spot is
constant. -/
theorem background_removed_sum_nonneg {S : ℕ} [NeZero S] (spot : Spot S) :
    (∀ i j, 0 ≤ spot i j - spotMin spot) ∧
      0 ≤ (sum_and_center_of_mass fun i j => spot i j - spotMin spot).1 ∧
      ((sum_and_center_of_mass fun i j => spot i j - spotMin spot).1 = 0 ↔
        ∀ i j i' j', spot i j = spot i' j') := by
  have hmin : ∀ i j, spotMin spot ≤ spot i j := fun i j =>
    Finset.inf'_le _ (Finset.mem_univ (⟨i, j⟩ : Fin S × Fin S))
  have hpix : ∀ i j, 0 ≤ spot i j - spotMin spot := fun i j =>
    sub_nonneg.mpr (hmin i j)
  have hsum : (sum_and_center_of_mass fun i j => spot i j - spotMin spot).1 =
      ∑ i : Fin S, ∑ j : Fin S, (spot i j - spotMin spot) := rfl
  refine ⟨hpix, ?_, ?_⟩
  · rw [hsum]
    exact Finset.sum_nonneg fun i _ => Finset.sum_nonneg fun j _ => hpix i j
  · rw [hsum]
    constructor
    · intro h0 i j i' j'
      have hall : ∀ i j, spot i j - spotMin spot = 0 := by
        have h1 := (Finset.sum_eq_zero_iff_of_nonneg fun i _ =>
          Finset.sum_nonneg fun j _ => hpix i j).mp h0
        intro i j
        have h2 := (Finset.sum_eq_zero_iff_of_nonneg fun j _ => hpix i j).mp
          (h1 i (Finset.mem_univ i)) j (Finset.mem_univ j)
        exact h2
      have e1 : spot i j = spotMin spot := by
        have := hall i j; linarith
      have e2 : spot i' j' = spotMin spot := by
        have := hall i' j'; linarith
      rw [e1, e2]
    · intro hconst
      have i0 : Fin S := Classical.arbitrary (Fin S)
      have hminval : spotMin spot = spot i0 i0 := by
        apply le_antisymm (hmin i0 i0)
        apply Finset.le_inf'
        intro p _
        exact le_of_eq (hconst i0 i0 p.1 p.2)
      apply Finset.sum_eq_zero
      intro i _
      apply Finset.sum_eq_zero
      intro j _
      rw [hminval, hconst i j i0 i0]
      ring

/-- C9 witness: the invariants instantiated at the concrete 3×3 spot
`spotAsym`. -/
theorem background_removed_sum_nonneg_witness :
    (∀ i j, 0 ≤ spotAsym i j - spotMin spotAsym) ∧
      0 ≤ (sum_and_center_of_mass fun i j => spotAsym i j - spotMin spotAsym).1 ∧
      ((sum_and_center_of_mass fun i j => spotAsym i j - spotMin spotAsym).1 = 0 ↔
        ∀ i j i' j', spotAsym i j = spotAsym i' j') :=
  background_removed_sum_nonneg spotAsym

/-- C2: at the concrete spot `spotAsym` (background 0, total 2, row-weighted
center of mass `Σ i·v / sum = 0`, column-weighted center of mass
`Σ j·v / sum = 1`, `size_half = 1`), the code puts the column-weighted
center of mass into `theta[1]` (the y slot, which the forward model pairs
with row index `i`) and the row-weighted one into `theta[0]`: after the
`-= size_half` shift the code yields `theta[1] = 0` and `theta[0] = -1`,
whereas the claimed assignment is `theta[1] = Σ i·v / sum - H = -1` and
`theta[0] = Σ j·v / sum - H = 0`. -/
theorem com_assignment_swapped :
    initial_parameters spotAsym 1 1 = 0 ∧
    initial_parameters spotAsym 1 0 = -1 ∧
    ((∑ i : Fin 3, ∑ j : Fin 3, (spotAsym i j - spotMin spotAsym) * (i.val : ℚ)) /
        (∑ i : Fin 3, ∑ j : Fin 3, (spotAsym i j - spotMin spotAsym)) - 1) = -1 ∧
    ((∑ i : Fin 3, ∑ j : Fin 3, (spotAsym i j - spotMin spotAsym) * (j.val : ℚ)) /
        (∑ i : Fin 3, ∑ j : Fin 3, (spotAsym i j - spotMin spotAsym)) - 1) = 0 := by
  have hmin : spotMin spotAsym = 0 := by decide
  refine ⟨?_, ?_, ?_, ?_⟩ <;>
    simp [initial_parameters, sum_and_center_of_mass, hmin, Fin.sum_univ_three,
      spotAsym]

/-- C3: on the flat spot `spotFlat` the background (the minimum) equals every
pixel, the background-removed total intensity — the value `_sum_` that
`_sum_and_center_of_mass` divides by with no guard, and that
`_initial_sigmas` again divides by with no guard — is exactly 0, and the
source has no branch flooring it or rejecting the spot. -/
theorem flat_spot_zero_denominator :
    spotMin spotFlat = 5 ∧
    (sum_and_center_of_mass fun i j => spotFlat i j - spotMin spotFlat).1 = 0 := by
  have hmin : spotMin spotFlat = 5 := by decide
  refine ⟨hmin, ?_⟩
  simp [sum_and_center_of_mass, Fin.sum_univ_three, spotFlat, hmin]

/-- Embeds `_gaussian(mu, sigma, grid)`: elementwise over the grid,
`norm * exp(-0.5 * ((grid - mu) / sigma)**2)` with
`norm = 0.3989422804014327 / sigma`, the literal constant the source uses
for `1/sqrt(2*pi)`. -/
noncomputable def gaussian {S : ℕ} (mu sigma : ℝ) (grid : Fin S → ℝ) : Fin S → ℝ :=
  fun k => 0.3989422804014327 / sigma * Real.exp (-0.5 * ((grid k - mu) / sigma) ^ 2)

/-- Embeds `_outer(a, b, size, model, n, bg)`: writes
`model[i, j] = n * a[i] * b[j] + bg`. -/
def outer {S : ℕ} (a b : Fin S → ℝ) (n bg : ℝ) : Fin S → Fin S → ℝ :=
  fun i j => n * a i * b j + bg

/-- Embeds `_compute_model(theta, grid, size, model_x, model_y, model)`:
`model_x = _gaussian(theta[0], theta[4], grid)`,
`model_y = _gaussian(theta[1], theta[5], grid)`, and
`_outer(model_y, model_x, size, model, theta[2], theta[3])`. -/
noncomputable def compute_model {S : ℕ} (theta : Fin 6 → ℝ) (grid : Fin S → ℝ) :
    Fin S → Fin S → ℝ :=
  outer (gaussian (theta 1) (theta 5) grid) (gaussian (theta 0) (theta 4) grid)
    (theta 2) (theta 3)

/-- Embeds `_compute_residuals(theta, spot, grid, ...)`: computes the model,
sets `residuals[:, :] = spot - model` and returns `residuals.flatten()` —
numpy's row-major flattening, row index outermost. -/
noncomputable def compute_residuals {S : ℕ} (theta : Fin 6 → ℝ)
    (spot : Fin S → Fin S → ℝ) (grid : Fin S → ℝ) : List ℝ :=
  (List.finRange S).flatMap fun i =>
    (List.finRange S).map fun j => spot i j - compute_model theta grid i j

/-- Helper: reading a flattened list of `S`-long rows at flat index
`n * S + b` reads entry `b` of row `n`. -/
theorem flatten_getD_rowMajor {β : Type} {S : ℕ} (d : β) :
    ∀ (L : List (List β)) (n b : ℕ), (∀ r ∈ L, r.length = S) → n < L.length → b < S →
      L.flatten.getD (n * S + b) d = (L.getD n []).getD b d := by
  intro L
  induction L with
  | nil => intro n b _ hn _; exact absurd hn (by simp)
  | cons r L ih =>
    intro n b hlen hn hb
    have hr : r.length = S := hlen r (List.mem_cons_self r L)
    cases n with
    | zero =>
      rw [List.flatten_cons, List.getD_eq_getElem?_getD,
        List.getElem?_append_left (by simpa [hr] using hb),
        ← List.getD_eq_getElem?_getD]
      simp
    | succ n =>
      have hS : r.length ≤ (n + 1) * S + b := by
        rw [hr, Nat.succ_mul]
        omega
      rw [List.flatten_cons, List.getD_eq_getElem?_getD,
        List.getElem?_append_right hS, ← List.getD_eq_getElem?_getD]
      have harith : (n + 1) * S + b - r.length = n * S + b := by
        rw [hr, Nat.succ_mul]
        omega
      rw [harith,
        ih n b (fun r hrm => hlen r (List.mem_cons_of_mem _ hrm)) (by simpa using hn) hb]
      simp

/-- Helper: `getD` through `map`, at an in-range index, for any defaults. -/
theorem map_getD_of_lt {α β : Type} (l : List α) (f : α → β) (n : ℕ) (d : β) (a : α)
    (hn : n < l.length) : (l.map f).getD n d = f (l.getD n a) := by
  rw [List.getD_eq_getElem?_getD, List.getElem?_map, List.getD_eq_getElem?_getD,
    List.getElem?_eq_getElem hn]
  simp

/-- Helper: `List.finRange S` read at `a.val` is `a`. -/
theorem finRange_getD {S : ℕ} (a : Fin S) : (List.finRange S).getD a.val a = a := by
  rw [List.getD_eq_getElem?_getD]
  simp [List.getElem?_eq_getElem, a.isLt]

/-- C5 (amended): the 1D profile is
`profile[k] = (0.3989422804014327 / sigma) * exp(-0.5*((grid[k]-mu)/sigma)^2)`
— with the source's literal double constant `0.3989422804014327` in place of
the claim's exact `1/sqrt(2*pi)` —, the 2D model is
`model[i,j] = photons * profile_y[i] * profile_x[j] + bg`, and the residual
is `spot - model`, flattened row-major: the flat sequence has length `S*S`
and its entry `i*S + j` is `spot[i,j] - model[i,j]`. -/
theorem forward_model_and_residuals {S : ℕ} (theta : Fin 6 → ℝ)
    (spot : Fin S → Fin S → ℝ) (grid : Fin S → ℝ) :
    (∀ mu sigma k, gaussian mu sigma grid k =
        0.3989422804014327 / sigma * Real.exp (-0.5 * ((grid k - mu) / sigma) ^ 2)) ∧
    (∀ i j, compute_model theta grid i j =
        theta 2 * gaussian (theta 1) (theta 5) grid i *
          gaussian (theta 0) (theta 4) grid j + theta 3) ∧
    (compute_residuals theta spot grid).length = S * S ∧
    (∀ i j : Fin S, (compute_residuals theta spot grid).getD (i.val * S + j.val) 0 =
        spot i j - compute_model theta grid i j) := by
  refine ⟨fun mu sigma k => rfl, fun i j => rfl, ?_, ?_⟩
  · rw [compute_residuals, List.length_flatMap,
      List.map_congr_left (g := fun _ => S) (fun i _ => by simp)]
    simp [List.map_const', List.sum_replicate, smul_eq_mul]
  · intro i j
    have hrows : ∀ r ∈ (List.finRange S).map (fun i => (List.finRange S).map
        fun j => spot i j - compute_model theta grid i j), r.length = S := by
      intro r hrm
      simp only [List.mem_map] at hrm
      obtain ⟨i', _, rfl⟩ := hrm
      simp
    rw [compute_residuals, List.flatMap_def,
      flatten_getD_rowMajor 0 _ i.val j.val hrows (by simp [i.isLt]) j.isLt,
      map_getD_of_lt _ _ _ _ i (by simp [i.isLt]), finRange_getD,
      map_getD_of_lt _ _ _ _ j (by simp [j.isLt]), finRange_getD]

/-- C5 counterexample: at `mu = 0`, `sigma = 1`, the all-zero grid of size 1
and `k = 0` (so `grid[k] - mu = 0`), the profile the code computes differs
from the claimed `(1/(sqrt(2*pi)*sigma)) * exp(-0.5*((grid[k]-mu)/sigma)^2)`:
the code's normalisation constant is the rational literal
`0.3989422804014327`, while `1/sqrt(2*pi)` is irrational. -/
theorem gaussian_constant_not_exact :
    gaussian (S := 1) 0 1 (fun _ => 0) 0 ≠
      1 / (Real.sqrt (2 * Real.pi) * 1) * Real.exp (-0.5 * (((0:ℝ) - 0) / 1) ^ 2) := by
  intro h
  have hl : gaussian (S := 1) 0 1 (fun _ => 0) 0 = 0.3989422804014327 := by
    simp [gaussian]
  have hr : (1 / (Real.sqrt (2 * Real.pi) * 1) * Real.exp (-0.5 * (((0:ℝ) - 0) / 1) ^ 2))
      = (Real.sqrt (2 * Real.pi))⁻¹ := by
    simp
  rw [hl, hr] at h
  have hs : Real.sqrt (2 * Real.pi) = (0.3989422804014327 : ℝ)⁻¹ := by
    rw [h, inv_inv]
  have h2 : 2 * Real.pi = ((0.3989422804014327 : ℝ)⁻¹) ^ 2 := by
    rw [← hs, Real.sq_sqrt (by positivity)]
  have hpi : Real.pi = ((((0.3989422804014327 : ℚ)⁻¹) ^ 2 / 2 : ℚ) : ℝ) := by
    push_cast
    nlinarith [h2]
  exact irrational_pi.ne_rat _ hpi

/-- Per-spot identification metadata, supplied by the upstream detector and
aligned 1:1 with the spots: integer-resolution center, source frame and
detection strength. -/
structure Identification where
  frame : ℕ
  x : ℚ
  y : ℚ
  net_gradient : ℚ

/-- A localization record, the row layout built by `locs_from_fits`. -/
structure Loc where
  frame : ℕ
  x : ℚ
  y : ℚ
  photons : ℚ
  sx : ℚ
  sy : ℚ
  bg : ℚ
  lpx : ℚ
  lpy : ℚ
  ellipticity : ℚ
  net_gradient : ℚ

/-- The elementwise ellipticity computation of `locs_from_fits`:
`a = maximum(theta[:, 4], theta[:, 5])`, `b = minimum(...)`,
`ellipticity = (a - b) / a`. -/
def ellipticity (sx sy : ℚ) : ℚ := (max sx sy - min sx sy) / max sx sy

/-- One row assembled by `locs_from_fits` from an identification and the
aligned parameter row `t = theta[k]`:
`x = theta[:,0] + identifications.x`, `y = theta[:,1] + identifications.y`,
`lpx/lpy` from the external `localization_precision` collaborator `lp`
(applied to photons, the axis sigma, background and the `em` flag), the
ellipticity above, and `frame`/`net_gradient` copied from the metadata. -/
def loc_of_fit (lp : ℚ → ℚ → ℚ → Bool → ℚ) (em : Bool)
    (p : Identification × (Fin 6 → ℚ)) : Loc :=
  { frame := p.1.frame
    x := p.2 0 + p.1.x
    y := p.2 1 + p.1.y
    photons := p.2 2
    sx := p.2 4
    sy := p.2 5
    bg := p.2 3
    lpx := lp (p.2 2) (p.2 4) (p.2 3) em
    lpy := lp (p.2 2) (p.2 5) (p.2 3) em
    ellipticity := ellipticity (p.2 4) (p.2 5)
    net_gradient := p.1.net_gradient }

/-- Embeds `locs_from_fits(identifications, theta, box, em)`: builds one
record per aligned (identification, parameter-row) pair and sorts the
records by `frame` with `kind='mergesort'` — numpy's stable sort, embedded
as Lean's stable `List.mergeSort`.  The `box` argument is unused in the
source (its only use is commented out). -/
def locs_from_fits (lp : ℚ → ℚ → ℚ → Bool → ℚ)
    (identifications : List Identification) (theta : List (Fin 6 → ℚ))
    (box : ℕ) (em : Bool) : List Loc :=
  let _ := box
  ((identifications.zip theta).map (loc_of_fit lp em)).mergeSort
    fun a b => a.frame ≤ b.frame

/-- Helper: the frame comparison used by the sort is transitive. -/
theorem frame_le_trans (a b c : Loc) :
    (decide (a.frame ≤ b.frame)) → (decide (b.frame ≤ c.frame)) →
      (decide (a.frame ≤ c.frame)) := by
  simp
  omega

/-- Helper: the frame comparison used by the sort is total. -/
theorem frame_le_total (a b : Loc) :
    (decide (a.frame ≤ b.frame)) || (decide (b.frame ≤ a.frame)) := by
  simp [Nat.le_total]

/-- C10: for positive widths, the ellipticity `(max - min) / max` lies in
`[0, 1)`, is unchanged under swapping `sx` and `sy`, and equals
`1 - min(sx,sy) / max(sx,sy)`. -/
theorem ellipticity_range_symm (sx sy : ℚ) (hx : 0 < sx) (hy : 0 < sy) :
    0 ≤ ellipticity sx sy ∧ ellipticity sx sy < 1 ∧
      ellipticity sx sy = ellipticity sy sx ∧
      ellipticity sx sy = 1 - min sx sy / max sx sy := by
  have hmax : 0 < max sx sy := lt_max_of_lt_left hx
  have hmin : 0 < min sx sy := lt_min hx hy
  have hle : min sx sy ≤ max sx sy := min_le_max
  refine ⟨?_, ?_, ?_, ?_⟩
  · apply div_nonneg _ hmax.le
    linarith
  · rw [ellipticity, div_lt_one hmax]
    linarith
  · rw [ellipticity, ellipticity, max_comm, min_comm]
  · rw [ellipticity, sub_div, div_self hmax.ne']

/-- C10 witness: the ellipticity facts at the concrete widths `sx = 2`,
`sy = 3`. -/
theorem ellipticity_range_symm_witness :
    (0 : ℚ) < 2 ∧ (0 : ℚ) < 3 ∧
      (0 ≤ ellipticity 2 3 ∧ ellipticity 2 3 < 1 ∧
        ellipticity 2 3 = ellipticity 3 2 ∧
        ellipticity 2 3 = 1 - min (2 : ℚ) 3 / max (2 : ℚ) 3) :=
  ⟨by norm_num, by norm_num, ellipticity_range_symm 2 3 (by norm_num) (by norm_num)⟩

/-- C6: each assembled record adds the fitted offsets to the identification
centers, carries the ellipticity `(max(sx,sy) - min(sx,sy)) / max(sx,sy)`,
and copies `frame` and `net_gradient` unchanged; the output of
`locs_from_fits` is a permutation of the assembled records that is sorted
by `frame`, and the sort is stable: for every frame value `f`, the
subsequence of records with that frame appears in the output exactly in its
original (pre-sort) order. -/
theorem locs_from_fits_spec (lp : ℚ → ℚ → ℚ → Bool → ℚ)
    (identifications : List Identification) (theta : List (Fin 6 → ℚ))
    (box : ℕ) (em : Bool) :
    (∀ idn t, (loc_of_fit lp em (idn, t)).x = t 0 + idn.x ∧
      (loc_of_fit lp em (idn, t)).y = t 1 + idn.y ∧
      (loc_of_fit lp em (idn, t)).ellipticity =
        (max (t 4) (t 5) - min (t 4) (t 5)) / max (t 4) (t 5) ∧
      (loc_of_fit lp em (idn, t)).frame = idn.frame ∧
      (loc_of_fit lp em (idn, t)).net_gradient = idn.net_gradient) ∧
    (locs_from_fits lp identifications theta box em).Perm
      ((identifications.zip theta).map (loc_of_fit lp em)) ∧
    (locs_from_fits lp identifications theta box em).Pairwise
      (fun a b => a.frame ≤ b.frame) ∧
    ∀ f : ℕ, (locs_from_fits lp identifications theta box em).filter
        (fun r => r.frame = f) =
      ((identifications.zip theta).map (loc_of_fit lp em)).filter
        fun r => r.frame = f := by
  set recs : List Loc := (identifications.zip theta).map (loc_of_fit lp em) with hrecs
  have hout : locs_from_fits lp identifications theta box em =
      recs.mergeSort (fun a b => a.frame ≤ b.frame) := rfl
  refine ⟨fun idn t => ⟨rfl, rfl, rfl, rfl, rfl⟩, ?_, ?_, ?_⟩
  · rw [hout]
    exact List.mergeSort_perm recs _
  · rw [hout]
    have := List.sorted_mergeSort frame_le_trans frame_le_total recs
    simpa using this
  · intro f
    rw [hout]
    set p : Loc → Bool := fun r => decide (r.frame = f) with hp
    have hallf : ∀ x ∈ recs.filter p, x.frame = f := by
      intro x hx
      simpa [hp] using (List.mem_filter.mp hx).2
    have hpw : (recs.filter p).Pairwise fun a b => decide (a.frame ≤ b.frame) := by
      apply List.pairwise_of_forall_mem_list
      intro a ha b hb
      simp [hallf a ha, hallf b hb]
    have h1 : (fun a => p a && p a) = p := by
      funext a
      cases h : p a <;> simp
    have hsub : List.Sublist ((recs.filter p).filter p)
        ((recs.mergeSort (fun a b : Loc => a.frame ≤ b.frame)).filter p) :=
      (List.sublist_mergeSort frame_le_trans frame_le_total hpw
        (List.filter_sublist recs)).filter p
    rw [List.filter_filter, h1] at hsub
    have hperm : ((recs.mergeSort (fun a b : Loc => a.frame ≤ b.frame)).filter p).Perm
        (recs.filter p) :=
      (List.mergeSort_perm recs _).filter p
    exact (hsub.eq_of_length hperm.length_eq.symm).symm

/-- Embeds `fit_spot(spot)`.  The `scipy.optimize.leastsq` call is an
external collaborator, passed in as `leastsq`: it maps the residual
function and the initial parameter vector `theta0` to the tuple
`result = (x, ier)` (final iterate, integer status flag).  The source
builds `grid = arange(-size_half, size_half + 1)` (entry `k` is
`k - size_half` for the odd sizes the fitter is used with), computes
`theta0 = _initial_parameters(spot, size, size_half)`, runs the solver on
`_compute_residuals` and returns `result[0]` unconditionally — it never
inspects the status component. -/
noncomputable def fit_spot {S : ℕ} [NeZero S]
    (leastsq : ((Fin 6 → ℝ) → List ℝ) → (Fin 6 → ℝ) → (Fin 6 → ℝ) × ℤ)
    (spot : Spot S) : Fin 6 → ℝ :=
  let size_half : ℕ := S / 2
  let grid : Fin S → ℝ := fun k => (k.val : ℝ) - size_half
  let theta0 := initial_parameters spot size_half
  let result := leastsq
    (fun theta => compute_residuals theta (fun i j => ((spot i j : ℚ) : ℝ)) grid) theta0
  result.1

/-- C7: `fit_spot` returns exactly the solver's final parameter vector (the
first component of the `leastsq` result) and surfaces no convergence flag:
two solvers that produce the same final iterates but arbitrary, different
status flags — e.g. one that never meets the iteration/tolerance criteria —
give identical `fit_spot` results. -/
theorem fit_spot_returns_last_iterate {S : ℕ} [NeZero S] (spot : Spot S)
    (ls1 ls2 : ((Fin 6 → ℝ) → List ℝ) → (Fin 6 → ℝ) → (Fin 6 → ℝ) × ℤ)
    (h : ∀ f theta0, (ls1 f theta0).1 = (ls2 f theta0).1) :
    fit_spot ls1 spot =
      (ls1 (fun theta => compute_residuals theta (fun i j => ((spot i j : ℚ) : ℝ))
          fun k => (k.val : ℝ) - ((S / 2 : ℕ) : ℝ))
        (initial_parameters spot (S / 2))).1 ∧
    fit_spot ls1 spot = fit_spot ls2 spot :=
  ⟨rfl, h _ _⟩

/-- C7 witness: at the concrete flat 3×3 spot and two concrete solvers that
agree on the final iterate but carry the different status flags 0 and 1,
`fit_spot` returns the same vector. -/
theorem fit_spot_returns_last_iterate_witness :
    fit_spot (fun _ theta0 => (theta0, (0 : ℤ))) spotFlat =
      fit_spot (fun _ theta0 => (theta0, (1 : ℤ))) spotFlat :=
  (fit_spot_returns_last_iterate spotFlat _ _ fun _ _ => rfl).2

/-- The matrix allocation of `fit_spots`:
`theta = empty((len(spots), 6)); theta.fill(nan)`.  A NaN-prefilled
(not-yet-written) row is embedded as `none`; a written row as `some` of the
written parameter vector (the exact scalars of this embedding have no NaN,
so the sentinel is carried by the `Option` layer). -/
def nanMatrix (Theta : Type) (n : ℕ) : List (Option Theta) := List.replicate n none

/-- The fill loop of `fit_spots`:
`for i, spot in enumerate(spots): theta[i] = fit_spot(spot)`, with `i`
starting from the given row index.  The per-spot fitter is abstract here
(`fitSpot`), so the batch layer is independent of the solver. -/
def fillRows {σ Theta : Type} (fitSpot : σ → Theta) :
    List (Option Theta) → ℕ → List σ → List (Option Theta)
  | mat, _, [] => mat
  | mat, i, spot :: rest => fillRows fitSpot (mat.set i (some (fitSpot spot))) (i + 1) rest

/-- Embeds `fit_spots(spots)`: allocate the NaN matrix, then fill row `i`
with the fit of spot `i`, sequentially in input order. -/
def fit_spots {σ Theta : Type} (fitSpot : σ → Theta) (spots : List σ) :
    List (Option Theta) :=
  fillRows fitSpot (nanMatrix Theta spots.length) 0 spots

/-- Helper: running the fill loop at row index `pre.length` over a matrix
`pre ++ suf` rewrites the next `l.length` rows of `suf` in order and leaves
the rest of `suf` untouched. -/
theorem fillRows_append {σ Theta : Type} (fitSpot : σ → Theta) :
    ∀ (l : List σ) (pre suf : List (Option Theta)), l.length ≤ suf.length →
      fillRows fitSpot (pre ++ suf) pre.length l =
        pre ++ l.map (fun s => some (fitSpot s)) ++ suf.drop l.length := by
  intro l
  induction l with
  | nil =>
    intro pre suf _
    simp [fillRows]
  | cons a l ih =>
    intro pre suf h
    match suf with
    | [] => simp at h
    | b :: suf =>
      have hset : (pre ++ b :: suf).set pre.length (some (fitSpot a)) =
          (pre ++ [some (fitSpot a)]) ++ suf := by
        rw [List.set_append_right _ _ (Nat.le_refl pre.length)]
        simp
      have hlen : pre.length + 1 = (pre ++ [some (fitSpot a)]).length := by
        simp
      rw [fillRows, hset, hlen, ih (pre ++ [some (fitSpot a)]) suf (by simpa using h)]
      simp

/-- Helper: with every fit succeeding, `fit_spots` fills every row: row `i`
holds the fit of spot `i`. -/
theorem fit_spots_eq_map {σ Theta : Type} (fitSpot : σ → Theta) (spots : List σ) :
    fit_spots fitSpot spots = spots.map fun s => some (fitSpot s) := by
  have h := fillRows_append fitSpot spots [] (nanMatrix Theta spots.length)
    (by simp [nanMatrix])
  simpa [fit_spots, nanMatrix, List.drop_replicate] using h

/-- C8: the Batch Fitter's matrix starts as `spots.length` NaN-sentinel rows;
filling proceeds sequentially in input order — after the first `k` fits,
rows `0..k-1` hold the fitted parameters of spots `0..k-1` and every later
row is still the NaN sentinel (`none`), not a zero row — and the complete
run leaves row `i` holding the fit of spot `i` for every `i`. -/
theorem fit_spots_rows (σ Theta : Type) (fitSpot : σ → Theta) (spots : List σ)
    (k : ℕ) :
    (nanMatrix Theta spots.length).length = spots.length ∧
    (∀ r ∈ nanMatrix Theta spots.length, r = none) ∧
    fillRows fitSpot (nanMatrix Theta spots.length) 0 (spots.take k) =
      (spots.take k).map (fun s => some (fitSpot s)) ++
        List.replicate (spots.length - k) none ∧
    fit_spots fitSpot spots = spots.map fun s => some (fitSpot s) := by
  refine ⟨by simp [nanMatrix], fun r hr => List.eq_of_mem_replicate hr, ?_,
    fit_spots_eq_map fitSpot spots⟩
  have h := fillRows_append fitSpot (spots.take k) [] (nanMatrix Theta spots.length)
    (by simp [nanMatrix, List.length_take])
  have hdrop : (nanMatrix Theta spots.length).drop (spots.take k).length =
      List.replicate (spots.length - k) (none : Option Theta) := by
    rw [nanMatrix, List.drop_replicate, List.length_take]
    congr 1
    omega
  rw [← hdrop]
  simpa using h

/-- Embeds `n_workers = max(1, int(0.75 * _multiprocessing.cpu_count()))`.
The available core count is an environment input, passed as `cores`; for a
natural `c`, `int(0.75 * c)` is the floor of `3c/4`, i.e. natural division
`3 * c / 4` (proved against the rational floor in the C4 theorem). -/
def n_workers (cores : ℕ) : ℕ := max 1 (3 * cores / 4)

/-- Embeds `spots_per_task = [int(n_spots / n_tasks + 1) if _ < n_spots %
n_tasks else int(n_spots / n_tasks) for _ in range(n_tasks)]` (true
division followed by `int` truncation is natural-division floor, and
`int(q + 1) = int(q) + 1`). -/
def spots_per_task (n_spots n_tasks : ℕ) : List ℕ :=
  (List.range n_tasks).map fun k =>
    if k < n_spots % n_tasks then n_spots / n_tasks + 1 else n_spots / n_tasks

/-- Embeds `start_indices = _np.cumsum([0] + spots_per_task[:-1])`: entry
`k` of the running sum is the sum of the first `k` task sizes. -/
def start_indices (szs : List ℕ) : List ℕ :=
  (List.range szs.length).map fun k => (szs.take k).sum

/-- Embeds `fits_from_futures(futures)`: reads every future's `result()` in
submission-list order (never completion order) and stacks the row blocks
(`np.vstack`).  A future's result is embedded as the value of the
submitted computation. -/
def fits_from_futures {Theta : Type} (futures : List (List (Option Theta))) :
    List (Option Theta) :=
  futures.flatten

/-- Embeds the synchronous path of `fit_spots_parallel(spots)`: compute the
worker count from the available cores, build `n_tasks = 100 * n_workers`
task sizes and their start indices, submit `fit_spots(spots[i:i+n])` for
each start/size pair in index order, and aggregate the futures with
`fits_from_futures`.  The progress loop over `as_completed` only updates
the progress bar and is dropped by the embedding. -/
def fit_spots_parallel {σ Theta : Type} (fitSpot : σ → Theta) (cores : ℕ)
    (spots : List σ) : List (Option Theta) :=
  let nw := n_workers cores
  let nt := 100 * nw
  let szs := spots_per_task spots.length nt
  let fs := ((start_indices szs).zip szs).map fun p =>
    fit_spots fitSpot ((spots.drop p.1).take p.2)
  fits_from_futures fs

/-- Helper: summing `if k < r then b + 1 else b` over `range T`. -/
theorem sum_range_map_if (b r : ℕ) :
    ∀ T, ((List.range T).map fun k => if k < r then b + 1 else b).sum =
      T * b + min r T := by
  intro T
  induction T with
  | zero => simp
  | succ T ih =>
    rw [List.range_succ, List.map_append, List.sum_append]
    simp only [List.map_cons, List.map_nil, List.sum_cons, List.sum_nil]
    rw [ih, Nat.succ_mul]
    by_cases h : T < r
    · rw [if_pos h, min_eq_right h.le, min_eq_right h]
      omega
    · push_neg at h
      rw [if_neg (by omega), min_eq_left h, min_eq_left (by omega)]
      omega

/-- Helper: the task sizes sum exactly to the number of spots. -/
theorem spots_per_task_sum (N T : ℕ) (hT : 0 < T) : (spots_per_task N T).sum = N := by
  rw [spots_per_task, sum_range_map_if, min_eq_left (Nat.mod_lt N hT).le]
  exact Nat.div_add_mod N T

/-- Helper: `List.range` read at an in-range index. -/
theorem range_getD {n k : ℕ} (h : k < n) : (List.range n).getD k 0 = k := by
  rw [List.getD_eq_getElem?_getD, List.getElem?_range h]
  rfl

/-- Helper: consecutive start indices differ by exactly the task size —
the tasks are contiguous. -/
theorem start_indices_succ (szs : List ℕ) (k : ℕ) (hk : k + 1 < szs.length) :
    (start_indices szs).getD (k + 1) 0 =
      (start_indices szs).getD k 0 + szs.getD k 0 := by
  rw [start_indices,
    map_getD_of_lt _ _ _ _ 0 (by simpa using hk),
    map_getD_of_lt _ _ _ _ 0 (by simp; omega),
    range_getD hk, range_getD (by omega), List.take_succ, List.sum_append,
    List.getElem?_eq_getElem (show k < szs.length by omega)]
  simp [List.getD_eq_getElem?_getD, List.getElem?_eq_getElem (show k < szs.length by omega)]

/-- Helper: an in-range start index is the sum of the earlier sizes. -/
theorem start_indices_getD (szs : List ℕ) (k : ℕ) (hk : k < szs.length) :
    (start_indices szs).getD k 0 = (szs.take k).sum := by
  rw [start_indices, map_getD_of_lt _ _ _ _ 0 (by simpa using hk), range_getD hk]

/-- Helper: every index below the total size falls in exactly one of the
half-open prefix-sum intervals. -/
theorem unique_interval_of_lt_sum :
    ∀ (szs : List ℕ) (s : ℕ), s < szs.sum →
      ∃! k : ℕ, (szs.take k).sum ≤ s ∧ s < (szs.take k).sum + szs.getD k 0 := by
  intro szs
  induction szs with
  | nil =>
    intro s hs
    simp at hs
  | cons n rest ih =>
    intro s hs
    rw [List.sum_cons] at hs
    by_cases h : s < n
    · refine ⟨0, ⟨by simp, by simpa using h⟩, ?_⟩
      intro k hk
      match k with
      | 0 => rfl
      | k + 1 =>
        exfalso
        rw [List.take_succ_cons, List.sum_cons] at hk
        omega
    · push_neg at h
      obtain ⟨k, ⟨hk1, hk2⟩, huniq⟩ := ih (s - n) (by omega)
      refine ⟨k + 1, ⟨?_, ?_⟩, ?_⟩
      · rw [List.take_succ_cons, List.sum_cons]
        omega
      · rw [List.take_succ_cons, List.sum_cons, List.getD_cons_succ]
        omega
      · intro k' hk'
        match k' with
        | 0 =>
          exfalso
          simp only [List.take_zero, List.sum_nil, List.getD_cons_zero] at hk'
          omega
        | k' + 1 =>
          rw [List.take_succ_cons, List.sum_cons, List.getD_cons_succ] at hk'
          have := huniq k' ⟨by omega, by omega⟩
          omega

/-- C4: for every core count and every `N ≥ 0`, the scheduler's worker
count is `max(1, floor(0.75 * cores))`, it creates exactly `T = 100 * W`
tasks, task `k` has size `floor(N/T) + 1` when `k < N mod T` and
`floor(N/T)` otherwise, the sizes sum exactly to `N`, consecutive tasks
are contiguous (each start index is the previous start plus the previous
size), and every spot index `s < N` lies in exactly one task's half-open
range. -/
theorem scheduler_partition (cores N : ℕ) :
    n_workers cores = max 1 ⌊(0.75 : ℚ) * (cores : ℚ)⌋₊ ∧
    (spots_per_task N (100 * n_workers cores)).length = 100 * n_workers cores ∧
    (∀ k, k < 100 * n_workers cores →
      (spots_per_task N (100 * n_workers cores)).getD k 0 =
        if k < N % (100 * n_workers cores) then N / (100 * n_workers cores) + 1
        else N / (100 * n_workers cores)) ∧
    (spots_per_task N (100 * n_workers cores)).sum = N ∧
    (∀ k, k + 1 < 100 * n_workers cores →
      (start_indices (spots_per_task N (100 * n_workers cores))).getD (k + 1) 0 =
        (start_indices (spots_per_task N (100 * n_workers cores))).getD k 0 +
          (spots_per_task N (100 * n_workers cores)).getD k 0) ∧
    ∀ s, s < N → ∃! k,
      (start_indices (spots_per_task N (100 * n_workers cores))).getD k 0 ≤ s ∧
      s < (start_indices (spots_per_task N (100 * n_workers cores))).getD k 0 +
        (spots_per_task N (100 * n_workers cores)).getD k 0 := by
  set W := n_workers cores with hW
  set T := 100 * W with hT
  have hT0 : 0 < T := by
    have : 1 ≤ W := le_max_left 1 _
    omega
  set szs := spots_per_task N T with hszs
  have hlen : szs.length = T := by simp [hszs, spots_per_task]
  refine ⟨?_, hlen, ?_, spots_per_task_sum N T hT0, ?_, ?_⟩
  · have hfl : ⌊(0.75 : ℚ) * (cores : ℚ)⌋₊ = 3 * cores / 4 := by
      have h : (0.75 : ℚ) * (cores : ℚ) = ((3 * cores : ℕ) : ℚ) / ((4 : ℕ) : ℚ) := by
        push_cast
        ring
      rw [h, Nat.floor_div_eq_div]
    rw [hfl, hW, n_workers]
  · intro k hk
    rw [hszs, spots_per_task, map_getD_of_lt _ _ _ _ 0 (by simpa using hk),
      range_getD hk]
  · intro k hk
    exact start_indices_succ szs k (by omega)
  · intro s hs
    have hsum : s < szs.sum := by rw [spots_per_task_sum N T hT0]; exact hs
    obtain ⟨k, hk, huniq⟩ := unique_interval_of_lt_sum szs s hsum
    have hbridge : ∀ m : ℕ,
        ((start_indices szs).getD m 0 ≤ s ∧
          s < (start_indices szs).getD m 0 + szs.getD m 0) ↔
        ((szs.take m).sum ≤ s ∧ s < (szs.take m).sum + szs.getD m 0) := by
      intro m
      by_cases hm : m < szs.length
      · rw [start_indices_getD szs m hm]
      · push_neg at hm
        have h1 : (start_indices szs).getD m 0 = 0 := by
          apply List.getD_eq_default
          simp [start_indices]
          omega
        have h2 : szs.getD m 0 = 0 := List.getD_eq_default _ _ (by omega)
        have h3 : (szs.take m).sum = szs.sum := by
          rw [List.take_of_length_le (by omega)]
        constructor
        · intro hcon
          omega
        · intro hcon
          rw [h3] at hcon
          omega
    refine ⟨k, (hbridge k).mpr hk, ?_⟩
    intro k' hk'
    exact huniq k' ((hbridge k').mp hk')

/-- Helper: concatenating the contiguous slices `spots[i:i+n]` taken at the
cumulative start indices reconstructs the first `sum` spots. -/
theorem slices_flatten {σ : Type} :
    ∀ (szs : List ℕ) (l : List σ),
      (((start_indices szs).zip szs).map fun p => (l.drop p.1).take p.2).flatten =
        l.take szs.sum := by
  intro szs
  induction szs with
  | nil =>
    intro l
    simp [start_indices]
  | cons n rest ih =>
    intro l
    have hsi : start_indices (n :: rest) =
        0 :: (start_indices rest).map (fun s => n + s) := by
      rw [start_indices, start_indices, List.length_cons, List.range_succ_eq_map]
      simp only [List.map_cons, List.take_zero, List.sum_nil, List.map_map]
      simp
    rw [hsi, List.zip_cons_cons, List.map_cons, List.flatten_cons, List.drop_zero,
      List.zip_map_left, List.map_map]
    have hmap : (((start_indices rest).zip rest).map
          ((fun p : ℕ × ℕ => (l.drop p.1).take p.2) ∘ Prod.map (fun s => n + s) id)) =
        ((start_indices rest).zip rest).map
          fun p => ((l.drop n).drop p.1).take p.2 := by
      apply List.map_congr_left
      intro p _
      obtain ⟨a, b⟩ := p
      simp only [Function.comp_apply, Prod.map_apply, id_eq]
      rw [List.drop_drop]
    rw [hmap, ih (l.drop n), List.sum_cons, List.take_add]

/-- C1: for every per-spot fitter, every core count (hence every worker
count `W ≥ 1`) and every spot sequence, the synchronous parallel scheduler
— which aggregates the futures in task submission order, i.e. spot index
order — returns exactly the matrix of the sequential Batch Fitter applied
to the whole sequence, row for row. -/
theorem fit_spots_parallel_eq_fit_spots (σ Theta : Type) (fitSpot : σ → Theta)
    (cores : ℕ) (spots : List σ) :
    fit_spots_parallel fitSpot cores spots = fit_spots fitSpot spots := by
  have hW : 1 ≤ n_workers cores := le_max_left 1 _
  have hT0 : 0 < 100 * n_workers cores := by omega
  set szs := spots_per_task spots.length (100 * n_workers cores) with hszs
  have hfs : (((start_indices szs).zip szs).map fun p =>
        fit_spots fitSpot ((spots.drop p.1).take p.2)) =
      (((start_indices szs).zip szs).map fun p => (spots.drop p.1).take p.2).map
        (List.map fun s => some (fitSpot s)) := by
    rw [List.map_map]
    apply List.map_congr_left
    intro p _
    exact fit_spots_eq_map fitSpot _
  rw [fit_spots_parallel, fits_from_futures, ← hszs, hfs, ← List.map_flatten,
    slices_flatten, hszs, spots_per_task_sum _ _ hT0, List.take_length,
    fit_spots_eq_map]
